import Mathlib

/-!
Verification of the search-app core (src/search-app/app): the text chunker
(text_utils.py), the OCI generation adapter's response extraction and
configuration checks (oci_llm.py), and the ingestion/upload contracts
(store.py), shallowly embedded over `List Char` strings and `Int` for
Python integers.  Fallible Python code is modelled with `Except String`
(the error message plays the role of the raised exception).
-/

/-- Result type of fallible Python code: `.error msg` models a raised
exception carrying `msg`. -/
abbrev PyRes (α : Type) := Except String α

instance {α : Type} [DecidableEq α] : DecidableEq (PyRes α) := fun a b =>
  match a, b with
  | .ok x, .ok y =>
    if h : x = y then .isTrue (by rw [h]) else .isFalse (by intro hc; cases hc; exact h rfl)
  | .error x, .error y =>
    if h : x = y then .isTrue (by rw [h]) else .isFalse (by intro hc; cases hc; exact h rfl)
  | .ok _, .error _ => .isFalse (by intro hc; cases hc)
  | .error _, .ok _ => .isFalse (by intro hc; cases hc)

/-- Python `\s` / `str.strip` whitespace on the ASCII range (text_utils.py
uses `re.sub(r"\s+", " ", text).strip()`). -/
def py_is_space (c : Char) : Bool :=
  c = ' ' || c = '\t' || c = '\n' || c = '\r' || c = '\x0b' || c = '\x0c'

/-- One pass of `re.sub(r"\s+", " ", text)`: every maximal whitespace run
becomes a single `' '`.  The boolean records whether the previous character
belonged to a whitespace run. -/
def collapse_ws : Bool → List Char → List Char
  | _, [] => []
  | prevSpace, c :: rest =>
    if py_is_space c then
      if prevSpace then collapse_ws true rest
      else ' ' :: collapse_ws true rest
    else c :: collapse_ws false rest

/-- Python `str.strip()`: drop leading and trailing whitespace. -/
def py_strip (l : List Char) : List Char :=
  ((l.dropWhile py_is_space).reverse.dropWhile py_is_space).reverse

/-- `re.sub(r"\s+", " ", text).strip()` — the normalization performed at the
top of `chunk_text` (text_utils.py line 117). -/
def normalize_ws (l : List Char) : List Char :=
  py_strip (collapse_ws false l)

/-- `ChunkParams` dataclass (text_utils.py lines 16-21).  A Python
dataclass performs no validation: construction always succeeds, for any
`chunk_size`. -/
structure ChunkParams where
  chunk_size : Int := 1000
  chunk_overlap : Int := 200
  separators : List (List Char) := [['\n', '\n'], ['\n'], ['.', ' '], [' '], []]
deriving Repr, DecidableEq

/-- First occurrence of (non-empty) `sep` in `text`:
`some (before, after)` with `text = before ++ sep ++ after`. -/
def split_first (sep : List Char) : List Char → Option (List Char × List Char)
  | [] => if sep.isEmpty then some ([], []) else none
  | c :: rest =>
    if sep.isPrefixOf (c :: rest) then some ([], (c :: rest).drop sep.length)
    else
      match split_first sep rest with
      | some (pre, post) => some (c :: pre, post)
      | none => none

/-- Python `text.split(sep)` for non-empty `sep`, with fuel
(`text.length` is always enough fuel, since each found separator consumes
at least one character). -/
def split_on_aux (sep : List Char) : Nat → List Char → List (List Char)
  | 0, text => [text]
  | fuel + 1, text =>
    match split_first sep text with
    | none => [text]
    | some (pre, post) => pre :: split_on_aux sep fuel post

/-- Python `text.split(sep)` for non-empty `sep`. -/
def split_on (sep text : List Char) : List (List Char) :=
  split_on_aux sep text.length text

/-- Fixed-width slices of width `w + 1`, with fuel (text_utils.py line 100:
`[text[i:i+chunk_size] for i in range(0, len(text), chunk_size)]` for a
positive `chunk_size`). -/
def chunks_aux (w : Nat) : Nat → List Char → List (List Char)
  | 0, l => if l = [] then [] else [l]
  | _ + 1, [] => []
  | fuel + 1, c :: rest => ((c :: rest).take (w + 1)) :: chunks_aux w fuel (rest.drop w)

/-- `[text[i:i+chunk_size] for i in range(0, len(text), chunk_size)]` with a
Python `int` step: step `0` raises `ValueError`, a negative step yields an
empty `range` (hence no slices), a positive step slices the text. -/
def slice_fixed (cs : Int) (text : List Char) : PyRes (List (List Char)) :=
  if cs = 0 then .error "ValueError: range() arg 3 must not be zero"
  else if cs < 0 then .ok []
  else .ok (chunks_aux (cs.toNat - 1) text.length text)

/-- Output of one pass of the greedy packing loop of `_recursive_split`
(text_utils.py lines 81-97): `chunk` is an emitted buffer, `recurse` is an
oversized piece handed to the finer separators. -/
inductive PackItem where
  | chunk (c : List Char)
  | recurse (p : List Char)
deriving Repr, DecidableEq

/-- The text carried by a `PackItem`. -/
def PackItem.text : PackItem → List Char
  | .chunk c => c
  | .recurse p => p

/-- The greedy packing loop of `_recursive_split` (text_utils.py lines
81-97), defunctionalized: instead of calling `_recursive_split`
recursively on an oversized piece it emits `.recurse piece`; the caller
expands those in order, which yields exactly the Python `rebuilt` list. -/
def pack_pieces (cs : Int) (sep : List Char) (buf : List Char) :
    List (List Char) → List PackItem
  | [] => if buf = [] then [] else [.chunk buf]
  | piece :: more =>
    let candidate := if buf = [] then piece else buf ++ sep ++ piece
    if (candidate.length : Int) ≤ cs then pack_pieces cs sep candidate more
    else
      (if buf = [] then [] else [PackItem.chunk buf]) ++
        (if (piece.length : Int) ≤ cs then pack_pieces cs sep piece more
         else .recurse piece :: pack_pieces cs sep [] more)

/-- Expand the pack items in order: a `chunk` is kept, a `recurse` piece is
replaced by the result of `f` on it (the recursive `_recursive_split`
call); the first raised error propagates, as in the Python loop. -/
def expand_items (f : List Char → PyRes (List (List Char))) :
    List PackItem → PyRes (List (List Char))
  | [] => .ok []
  | .chunk c :: rest => (expand_items f rest).map (fun t => c :: t)
  | .recurse p :: rest =>
    match f p with
    | .error e => .error e
    | .ok sub => (expand_items f rest).map (fun t => sub ++ t)

/-- `_recursive_split` (text_utils.py lines 72-100), with fuel on the depth
of the separator list.  `fuel = separators.length + 1` always suffices:
each recursive call drops the head separator. -/
def recursive_split_aux : Nat → Int → List (List Char) → List Char →
    PyRes (List (List Char))
  | 0, _, _, text => .ok [text]
  | fuel + 1, cs, seps, text =>
    if text = [] then .ok []
    else if (text.length : Int) ≤ cs then .ok [text]
    else
      match seps with
      | [] => .ok [text]
      | sep :: rest =>
        if sep = [] then slice_fixed cs text
        else
          expand_items (recursive_split_aux fuel cs rest)
            (pack_pieces cs sep [] (split_on sep text))

/-- `_recursive_split(text, chunk_size, separators)` (text_utils.py lines
72-100). -/
def recursive_split (text : List Char) (cs : Int) (seps : List (List Char)) :
    PyRes (List (List Char)) :=
  recursive_split_aux (seps.length + 1) cs seps text

/-- The loop of `_apply_overlap` (text_utils.py lines 106-112): each chunk
is prefixed with the trailing `ov` characters of the previous (pre-overlap)
chunk; `ch[-ov:]` is `ch.drop (ch.length - ov)`. -/
def overlap_loop (ov : Nat) (prevTail : List Char) :
    List (List Char) → List (List Char)
  | [] => []
  | ch :: rest => (prevTail ++ ch) :: overlap_loop ov (ch.drop (ch.length - ov)) rest

/-- `_apply_overlap(chunks, overlap)` (text_utils.py lines 103-113). -/
def apply_overlap (chunks : List (List Char)) (overlap : Int) : List (List Char) :=
  if overlap ≤ 0 ∨ chunks = [] then chunks
  else overlap_loop overlap.toNat [] chunks

/-- `chunk_text(text, params)` (text_utils.py lines 116-121). -/
def chunk_text (text : List Char) (params : ChunkParams := {}) :
    PyRes (List (List Char)) :=
  let t := normalize_ws text
  match recursive_split t params.chunk_size params.separators with
  | .error e => .error e
  | .ok base => if base = [] then .ok [] else .ok (apply_overlap base params.chunk_overlap)

/-- Convenience: the character list of a string literal. -/
def strL (s : String) : List Char := s.data

/-- Join a list of pieces with a separator between consecutive pieces
(the inverse of `split_on`). -/
def inter (sep : List Char) : List (List Char) → List Char
  | [] => []
  | [p] => p
  | p :: more => p ++ sep ++ inter sep more

/-- A gap is a concatenation of separator strings: the text that the
greedy packing loop of `_recursive_split` drops between the chunks it
emits. -/
inductive Gaps (seps : List (List Char)) : List Char → Prop
  | nil : Gaps seps []
  | cons {sep g} : sep ∈ seps → Gaps seps g → Gaps seps (sep ++ g)

/-- `Interleaved seps l t` says the text `t` is exactly the chunks of `l`,
in order, with a (possibly empty) gap of dropped separator text before,
between, and after them. -/
inductive Interleaved (seps : List (List Char)) :
    List (List Char) → List Char → Prop
  | nil {g} : Gaps seps g → Interleaved seps [] g
  | cons {g c l t} : Gaps seps g → Interleaved seps l t →
      Interleaved seps (c :: l) (g ++ c ++ t)

theorem Gaps.append_gaps {seps : List (List Char)} {g₁ g₂ : List Char}
    (h₁ : Gaps seps g₁) (h₂ : Gaps seps g₂) : Gaps seps (g₁ ++ g₂) := by
  induction h₁ with
  | nil => simpa using h₂
  | cons hmem _ ih => simpa [List.append_assoc] using Gaps.cons hmem ih

theorem Gaps.mono_seps {s s' : List (List Char)} {g : List Char}
    (hs : s ⊆ s') (h : Gaps s g) : Gaps s' g := by
  induction h with
  | nil => exact Gaps.nil
  | cons hmem _ ih => exact Gaps.cons (hs hmem) ih

theorem Gaps.single_sep {seps : List (List Char)} {sep : List Char}
    (h : sep ∈ seps) : Gaps seps sep := by
  simpa using Gaps.cons h Gaps.nil

theorem Interleaved.gap_prepend {seps : List (List Char)}
    {g t : List Char} {l : List (List Char)}
    (hg : Gaps seps g) (h : Interleaved seps l t) :
    Interleaved seps l (g ++ t) := by
  induction h with
  | nil h' => exact Interleaved.nil (hg.append_gaps h')
  | cons hg' hi _ =>
    simpa [List.append_assoc] using Interleaved.cons (hg.append_gaps hg') hi

theorem Interleaved.single_chunk {seps : List (List Char)} {c : List Char} :
    Interleaved seps [c] c := by
  have h : Interleaved seps [c] ([] ++ c ++ []) :=
    Interleaved.cons Gaps.nil (Interleaved.nil Gaps.nil)
  simpa using h

theorem Interleaved.append {seps : List (List Char)}
    {l₁ l₂ : List (List Char)} {t₁ t₂ : List Char}
    (h₁ : Interleaved seps l₁ t₁) (h₂ : Interleaved seps l₂ t₂) :
    Interleaved seps (l₁ ++ l₂) (t₁ ++ t₂) := by
  induction h₁ with
  | nil hg => exact h₂.gap_prepend hg
  | cons hg hi ih => simpa [List.append_assoc] using Interleaved.cons hg ih

theorem Interleaved.mono {s s' : List (List Char)}
    {l : List (List Char)} {t : List Char}
    (hs : s ⊆ s') (h : Interleaved s l t) : Interleaved s' l t := by
  induction h with
  | nil hg => exact Interleaved.nil (hg.mono_seps hs)
  | cons hg _ ih => exact Interleaved.cons (hg.mono_seps hs) ih

theorem Interleaved.of_join {seps : List (List Char)} (l : List (List Char)) :
    Interleaved seps l l.flatten := by
  induction l with
  | nil => exact Interleaved.nil Gaps.nil
  | cons c rest ih => simpa using Interleaved.cons (g := []) Gaps.nil ih

theorem Interleaved.compose {seps : List (List Char)}
    {texts : List (List Char)} {T : List Char}
    (h : Interleaved seps texts T) :
    ∀ {ls : List (List (List Char))}, List.Forall₂ (Interleaved seps) ls texts →
      Interleaved seps ls.flatten T := by
  induction h with
  | nil hg =>
    intro ls hf
    cases hf
    exact Interleaved.nil hg
  | cons hg _ ih =>
    intro ls hf
    cases hf with
    | cons hc hrest =>
      simpa [List.append_assoc] using ((hc.append (ih hrest)).gap_prepend hg)

theorem split_first_eq {sep : List Char} (hsep : sep ≠ []) :
    ∀ {text pre post : List Char},
      split_first sep text = some (pre, post) →
      text = pre ++ sep ++ post ∧ post.length < text.length := by
  intro text
  induction text with
  | nil =>
    intro pre post h
    simp [split_first, List.isEmpty_iff, hsep] at h
  | cons c rest ih =>
    intro pre post h
    rw [split_first] at h
    by_cases hp : sep.isPrefixOf (c :: rest)
    · simp only [hp, if_pos] at h
      obtain ⟨t, ht⟩ := (List.isPrefixOf_iff_prefix.mp hp)
      cases h
      have hpos : 0 < sep.length := List.length_pos.mpr hsep
      rw [← ht, List.drop_left]
      refine ⟨by simp, ?_⟩
      simp only [List.length_append]
      omega
    · simp only [hp, if_neg, Bool.false_eq_true, not_false_iff] at h
      cases hrec : split_first sep rest with
      | none => rw [hrec] at h; exact absurd h (by simp)
      | some pp =>
        rw [hrec] at h
        obtain ⟨pre', post'⟩ := pp
        simp only [Option.some.injEq, Prod.mk.injEq] at h
        obtain ⟨h1, h2⟩ := h
        obtain ⟨he, hl⟩ := ih hrec
        subst h2
        constructor
        · rw [← h1]; simp [he]
        · simp only [List.length_cons]; omega

theorem split_on_aux_ne_nil (sep : List Char) (fuel : Nat) (text : List Char) :
    split_on_aux sep fuel text ≠ [] := by
  cases fuel with
  | zero => simp [split_on_aux]
  | succ f =>
    rw [split_on_aux]
    cases split_first sep text with
    | none => simp
    | some pp => simp

theorem inter_cons_of_ne_nil (sep p : List Char) {more : List (List Char)}
    (h : more ≠ []) : inter sep (p :: more) = p ++ sep ++ inter sep more := by
  cases more with
  | nil => exact absurd rfl h
  | cons q rest => rfl

theorem inter_split_on_aux {sep : List Char} (hsep : sep ≠ []) :
    ∀ (fuel : Nat) (text : List Char),
      inter sep (split_on_aux sep fuel text) = text := by
  intro fuel
  induction fuel with
  | zero => intro text; simp [split_on_aux, inter]
  | succ f ih =>
    intro text
    rw [split_on_aux]
    cases hs : split_first sep text with
    | none => simp [inter]
    | some pp =>
      obtain ⟨pre, post⟩ := pp
      obtain ⟨he, _⟩ := split_first_eq hsep hs
      rw [inter_cons_of_ne_nil sep pre (split_on_aux_ne_nil sep f post), ih]
      exact he.symm

theorem inter_split_on {sep : List Char} (hsep : sep ≠ []) (text : List Char) :
    inter sep (split_on sep text) = text :=
  inter_split_on_aux hsep text.length text

theorem split_on_ne_nil (sep text : List Char) : split_on sep text ≠ [] :=
  split_on_aux_ne_nil sep text.length text

theorem chunks_aux_flatten (w : Nat) :
    ∀ (fuel : Nat) (l : List Char), (chunks_aux w fuel l).flatten = l := by
  intro fuel
  induction fuel with
  | zero =>
    intro l
    by_cases h : l = [] <;> simp [chunks_aux, h]
  | succ f ih =>
    intro l
    cases l with
    | nil => simp [chunks_aux]
    | cons c rest =>
      rw [chunks_aux]
      simp [ih, List.take_succ_cons, List.take_append_drop]

theorem chunks_aux_bound (w : Nat) :
    ∀ (fuel : Nat) (l : List Char), l.length ≤ fuel →
      ∀ c ∈ chunks_aux w fuel l, c.length ≤ w + 1 := by
  intro fuel
  induction fuel with
  | zero =>
    intro l hl c hc
    interval_cases hlen : l.length
    rw [List.length_eq_zero.mp hlen] at hc
    simp [chunks_aux] at hc
  | succ f ih =>
    intro l hl c hc
    cases l with
    | nil => simp [chunks_aux] at hc
    | cons a rest =>
      rw [chunks_aux] at hc
      rcases List.mem_cons.mp hc with h | h
      · subst h; exact List.length_take_le _ _
      · refine ih (rest.drop w) ?_ c h
        rw [List.length_drop]
        simp only [List.length_cons] at hl
        omega

/-- The text represented by the packing-loop state `(buf, pieces)`: the
pending buffer, a separator, then the remaining pieces rejoined by the
separator. -/
def repr_state (sep buf : List Char) (pieces : List (List Char)) : List Char :=
  match pieces with
  | [] => buf
  | _ :: _ => if buf = [] then inter sep pieces else buf ++ sep ++ inter sep pieces

theorem repr_state_nil (sep buf : List Char) : repr_state sep buf [] = buf := rfl

theorem repr_state_cons (sep buf p : List Char) (more : List (List Char)) :
    repr_state sep buf (p :: more) =
      if buf = [] then inter sep (p :: more) else buf ++ sep ++ inter sep (p :: more) := rfl

theorem inter_eq_repr (sep p : List Char) (more : List (List Char)) :
    inter sep (p :: more) = repr_state sep p more ∨
      inter sep (p :: more) = sep ++ repr_state sep p more := by
  cases more with
  | nil => left; rfl
  | cons q rest =>
    by_cases hp : p = []
    · right
      subst hp
      rw [inter_cons_of_ne_nil sep [] (by simp), repr_state_cons, if_pos rfl]
      simp
    · left
      rw [inter_cons_of_ne_nil sep p (by simp), repr_state_cons, if_neg hp]

theorem repr_fits (sep buf p : List Char) (more : List (List Char))
    (candidate : List Char)
    (hcand : candidate = if buf = [] then p else buf ++ sep ++ p) :
    repr_state sep buf (p :: more) = repr_state sep candidate more ∨
      repr_state sep buf (p :: more) = sep ++ repr_state sep candidate more := by
  by_cases hbuf : buf = []
  · rw [hcand, if_pos hbuf, repr_state_cons, if_pos hbuf]
    exact inter_eq_repr sep p more
  · left
    rw [hcand, if_neg hbuf, repr_state_cons, if_neg hbuf]
    cases more with
    | nil => simp [repr_state, inter]
    | cons q rest =>
      rw [inter_cons_of_ne_nil sep p (by simp), repr_state_cons,
        if_neg (by simp [hbuf])]
      simp [List.append_assoc]

theorem pack_interleaved {S : List (List Char)} {sep : List Char}
    (hmem : sep ∈ S) (cs : Int) :
    ∀ (pieces : List (List Char)) (buf : List Char),
      Interleaved S ((pack_pieces cs sep buf pieces).map PackItem.text)
        (repr_state sep buf pieces) := by
  intro pieces
  induction pieces with
  | nil =>
    intro buf
    by_cases hbuf : buf = []
    · simp only [pack_pieces, repr_state_nil, hbuf, if_pos]
      exact Interleaved.nil Gaps.nil
    · simp only [pack_pieces, repr_state_nil, hbuf, if_neg, not_false_iff,
        List.map_cons, List.map_nil, PackItem.text]
      exact Interleaved.single_chunk
  | cons piece more ih =>
    intro buf
    rw [pack_pieces]
    by_cases hfits :
        (((if buf = [] then piece else buf ++ sep ++ piece).length : Int) ≤ cs)
    · simp only [hfits, if_pos]
      rcases repr_fits sep buf piece more _ rfl with h | h
      · rw [h]; exact ih _
      · rw [h]; exact (ih _).gap_prepend (Gaps.single_sep hmem)
    · simp only [hfits, if_neg, not_false_iff]
      have hmid : Interleaved S
          (piece :: (pack_pieces cs sep [] more).map PackItem.text)
          (inter sep (piece :: more)) := by
        cases more with
        | nil =>
          simp only [pack_pieces, if_pos, List.map_nil]
          exact Interleaved.single_chunk
        | cons q rest =>
          rw [inter_cons_of_ne_nil sep piece (by simp)]
          have h0 := (ih ([] : List Char)).gap_prepend (Gaps.single_sep hmem)
          rw [repr_state_cons, if_pos rfl] at h0
          have := Interleaved.cons (g := []) (c := piece) Gaps.nil h0
          simpa [List.append_assoc] using this
      by_cases hp : ((piece.length : Int) ≤ cs)
      · -- the piece seeds the next buffer; the old buffer must be non-empty
        have hbuf : buf ≠ [] := by
          intro hb
          rw [hb] at hfits
          simp only [if_pos] at hfits
          exact hfits hp
        simp only [hp, if_pos, hbuf, if_neg, not_false_iff, List.map_append,
          List.map_cons, List.map_nil, PackItem.text]
        rw [repr_state_cons, if_neg hbuf]
        rcases inter_eq_repr sep piece more with h | h
        · rw [h]
          have h0 := (ih piece).gap_prepend (Gaps.single_sep hmem)
          have := Interleaved.cons (g := []) (c := buf) Gaps.nil h0
          simpa [List.append_assoc] using this
        · rw [h]
          have h0 := ((ih piece).gap_prepend (Gaps.single_sep hmem)).gap_prepend
            (Gaps.single_sep hmem)
          have := Interleaved.cons (g := []) (c := buf) Gaps.nil h0
          simpa [List.append_assoc] using this
      · simp only [hp, if_neg, not_false_iff]
        by_cases hbuf : buf = []
        · simp only [hbuf, if_pos, List.nil_append, List.map_cons, PackItem.text]
          simpa [repr_state_cons] using hmid
        · simp only [hbuf, if_neg, not_false_iff, List.map_append, List.map_cons,
            List.map_nil, PackItem.text, List.cons_append, List.nil_append]
          rw [repr_state_cons, if_neg hbuf]
          have h0 := hmid.gap_prepend (Gaps.single_sep hmem)
          have := Interleaved.cons (g := []) (c := buf) Gaps.nil h0
          simpa [List.append_assoc] using this

/-- What each pack item contributed to a successful expansion: a `chunk` is
kept as a singleton, a `recurse` piece was split by `f`. -/
def item_res (f : List Char → PyRes (List (List Char)))
    (li : List (List Char)) : PackItem → Prop
  | .chunk c => li = [c]
  | .recurse p => f p = .ok li

theorem expand_items_ok {f : List Char → PyRes (List (List Char))} :
    ∀ {items : List PackItem} {l : List (List Char)},
      expand_items f items = .ok l →
      ∃ ls, l = ls.flatten ∧ List.Forall₂ (item_res f) ls items := by
  intro items
  induction items with
  | nil =>
    intro l h
    simp only [expand_items] at h
    cases h
    exact ⟨[], rfl, List.Forall₂.nil⟩
  | cons it rest ih =>
    intro l h
    cases it with
    | chunk c =>
      rw [expand_items] at h
      cases hrest : expand_items f rest with
      | error e => rw [hrest] at h; exact absurd h (by simp [Except.map])
      | ok t =>
        rw [hrest] at h
        simp only [Except.map, Except.ok.injEq] at h
        obtain ⟨ls, hflat, hf⟩ := ih hrest
        exact ⟨[c] :: ls, by simp [← h, hflat], List.Forall₂.cons rfl hf⟩
    | recurse p =>
      rw [expand_items] at h
      cases hp : f p with
      | error e => rw [hp] at h; exact absurd h (by simp)
      | ok sub =>
        rw [hp] at h
        cases hrest : expand_items f rest with
        | error e => rw [hrest] at h; exact absurd h (by simp [Except.map])
        | ok t =>
          rw [hrest] at h
          simp only [Except.map, Except.ok.injEq] at h
          obtain ⟨ls, hflat, hf⟩ := ih hrest
          exact ⟨sub :: ls, by simp [← h, hflat], List.Forall₂.cons hp hf⟩

theorem expand_items_total {f : List Char → PyRes (List (List Char))}
    {items : List PackItem}
    (h : ∀ p, PackItem.recurse p ∈ items → ∃ l, f p = .ok l) :
    ∃ l, expand_items f items = .ok l := by
  induction items with
  | nil => exact ⟨[], rfl⟩
  | cons it rest ih =>
    obtain ⟨t, ht⟩ := ih (fun p hp => h p (List.mem_cons_of_mem _ hp))
    cases it with
    | chunk c => exact ⟨c :: t, by rw [expand_items, ht]; rfl⟩
    | recurse p =>
      obtain ⟨sub, hsub⟩ := h p (List.mem_cons_self _ _)
      exact ⟨sub ++ t, by rw [expand_items, hsub, ht]; rfl⟩

theorem recursive_split_aux_succ (f : Nat) (cs : Int) (seps : List (List Char))
    (text : List Char) :
    recursive_split_aux (f + 1) cs seps text =
      (if text = [] then .ok []
       else if (text.length : Int) ≤ cs then .ok [text]
       else
         match seps with
         | [] => .ok [text]
         | sep :: rest =>
           if sep = [] then slice_fixed cs text
           else
             expand_items (recursive_split_aux f cs rest)
               (pack_pieces cs sep [] (split_on sep text))) := rfl

theorem recursive_split_aux_interleaved {cs : Int} (hcs : 1 ≤ cs) :
    ∀ (fuel : Nat) (seps : List (List Char)) (text : List Char)
      (l : List (List Char)),
      recursive_split_aux fuel cs seps text = .ok l →
      Interleaved seps l text := by
  intro fuel
  induction fuel with
  | zero =>
    intro seps text l h
    rw [show recursive_split_aux 0 cs seps text = .ok [text] from rfl] at h
    cases h
    exact Interleaved.single_chunk
  | succ f ih =>
    intro seps text l h
    rw [recursive_split_aux_succ] at h
    by_cases ht : text = []
    · rw [if_pos ht] at h
      cases h
      rw [ht]
      exact Interleaved.nil Gaps.nil
    · rw [if_neg ht] at h
      by_cases hlen : ((text.length : Int) ≤ cs)
      · rw [if_pos hlen] at h
        cases h
        exact Interleaved.single_chunk
      · rw [if_neg hlen] at h
        cases seps with
        | nil => cases h; exact Interleaved.single_chunk
        | cons sep rest =>
          simp only [] at h
          by_cases hsep : sep = []
          · rw [if_pos hsep] at h
            rw [slice_fixed, if_neg (by omega), if_neg (by omega)] at h
            cases h
            have : Interleaved (sep :: rest)
                (chunks_aux (cs.toNat - 1) text.length text)
                (chunks_aux (cs.toNat - 1) text.length text).flatten :=
              Interleaved.of_join _
            rwa [chunks_aux_flatten] at this
          · rw [if_neg hsep] at h
            obtain ⟨ls, hflat, hf⟩ := expand_items_ok h
            have hpack := pack_interleaved (S := sep :: rest)
              (List.mem_cons_self sep rest) cs (split_on sep text) []
            obtain ⟨p0, ps, hsplit⟩ : ∃ p0 ps, split_on sep text = p0 :: ps := by
              cases hsp : split_on sep text with
              | nil => exact absurd hsp (split_on_ne_nil sep text)
              | cons a b => exact ⟨a, b, rfl⟩
            have hinter := inter_split_on hsep text
            rw [hsplit] at hpack hinter hf
            rw [repr_state_cons, if_pos rfl, hinter] at hpack
            subst hflat
            refine hpack.compose ?_
            have hf' : List.Forall₂
                (fun li it => Interleaved (sep :: rest) li it.text) ls
                (pack_pieces cs sep [] (p0 :: ps)) := by
              refine hf.imp ?_
              intro li it hit
              cases it with
              | chunk c =>
                rw [item_res] at hit
                subst hit
                exact Interleaved.single_chunk
              | recurse p =>
                rw [item_res] at hit
                exact (ih rest p li hit).mono (List.subset_cons_self _ _)
            exact List.forall₂_map_right_iff.mpr hf'

theorem recursive_split_aux_total {cs : Int} (hcs : 1 ≤ cs) :
    ∀ (fuel : Nat) (seps : List (List Char)) (text : List Char),
      ∃ l, recursive_split_aux fuel cs seps text = .ok l := by
  intro fuel
  induction fuel with
  | zero => intro seps text; exact ⟨[text], rfl⟩
  | succ f ih =>
    intro seps text
    rw [recursive_split_aux_succ]
    by_cases ht : text = []
    · exact ⟨[], by rw [if_pos ht]⟩
    · rw [if_neg ht]
      by_cases hlen : ((text.length : Int) ≤ cs)
      · exact ⟨[text], by rw [if_pos hlen]⟩
      · rw [if_neg hlen]
        cases seps with
        | nil => exact ⟨[text], rfl⟩
        | cons sep rest =>
          simp only []
          by_cases hsep : sep = []
          · rw [if_pos hsep, slice_fixed, if_neg (by omega), if_neg (by omega)]
            exact ⟨_, rfl⟩
          · rw [if_neg hsep]
            exact expand_items_total (fun p _ => ih rest p)

theorem pack_chunk_bound {cs : Int} {sep : List Char} :
    ∀ {pieces : List (List Char)} {buf : List Char},
      (buf.length : Int) ≤ cs →
      ∀ c, PackItem.chunk c ∈ pack_pieces cs sep buf pieces →
        (c.length : Int) ≤ cs := by
  intro pieces
  induction pieces with
  | nil =>
    intro buf hbuf c hc
    rw [pack_pieces] at hc
    by_cases hb : buf = []
    · rw [if_pos hb] at hc; simp at hc
    · rw [if_neg hb] at hc
      simp only [List.mem_singleton, PackItem.chunk.injEq] at hc
      rw [hc]
      exact hbuf
  | cons piece more ih =>
    intro buf hbuf c hc
    rw [pack_pieces] at hc
    by_cases hfits :
        (((if buf = [] then piece else buf ++ sep ++ piece).length : Int) ≤ cs)
    · rw [if_pos hfits] at hc
      exact ih hfits c hc
    · rw [if_neg hfits] at hc
      rcases List.mem_append.mp hc with hfl | hrest
      · by_cases hb : buf = []
        · rw [if_pos hb] at hfl; simp at hfl
        · rw [if_neg hb] at hfl
          simp only [List.mem_singleton, PackItem.chunk.injEq] at hfl
          rw [hfl]
          exact hbuf
      · by_cases hp : ((piece.length : Int) ≤ cs)
        · rw [if_pos hp] at hrest
          exact ih hp c hrest
        · rw [if_neg hp] at hrest
          rcases List.mem_cons.mp hrest with habs | hrest'
          · exact absurd habs (by simp)
          · refine ih ?_ c hrest'
            simp only [List.length_nil, Int.ofNat_zero]
            have : (0 : Int) ≤ (buf.length : Int) := Int.ofNat_nonneg _
            omega

theorem forall₂_mem_left {α β : Type} {R : α → β → Prop} :
    ∀ {l₁ : List α} {l₂ : List β}, List.Forall₂ R l₁ l₂ →
      ∀ a ∈ l₁, ∃ b ∈ l₂, R a b := by
  intro l₁ l₂ h
  induction h with
  | nil => intro a ha; simp at ha
  | cons hr _ ih =>
    intro a ha
    rcases List.mem_cons.mp ha with rfl | ha'
    · exact ⟨_, List.mem_cons_self _ _, hr⟩
    · obtain ⟨b, hb, hrb⟩ := ih a ha'
      exact ⟨b, List.mem_cons_of_mem _ hb, hrb⟩

theorem getLast?_cons_of_ne_nil {α : Type} (a : α) {l : List α} (h : l ≠ []) :
    (a :: l).getLast? = l.getLast? := by
  cases l with
  | nil => exact absurd rfl h
  | cons b t => simp [List.getLast?_cons_cons]

theorem recursive_split_aux_bound {cs : Int} (hcs : 1 ≤ cs) :
    ∀ (fuel : Nat) (seps : List (List Char)) (text : List Char)
      (l : List (List Char)),
      seps.length < fuel →
      seps.getLast? = some [] →
      recursive_split_aux fuel cs seps text = .ok l →
      ∀ c ∈ l, (c.length : Int) ≤ cs := by
  intro fuel
  induction fuel with
  | zero => intro seps text l hf; omega
  | succ f ih =>
    intro seps text l hf hlast h
    rw [recursive_split_aux_succ] at h
    by_cases ht : text = []
    · rw [if_pos ht] at h
      cases h
      simp
    · rw [if_neg ht] at h
      by_cases hlen : ((text.length : Int) ≤ cs)
      · rw [if_pos hlen] at h
        cases h
        intro c hc
        rw [List.mem_singleton.mp hc]
        exact hlen
      · rw [if_neg hlen] at h
        cases seps with
        | nil => simp at hlast
        | cons sep rest =>
          simp only [] at h
          by_cases hsep : sep = []
          · rw [if_pos hsep, slice_fixed, if_neg (by omega), if_neg (by omega)] at h
            cases h
            intro c hc
            have := chunks_aux_bound (cs.toNat - 1) text.length text le_rfl c hc
            have htn : cs.toNat - 1 + 1 = cs.toNat := by omega
            rw [htn] at this
            calc (c.length : Int) ≤ (cs.toNat : Int) := by exact_mod_cast this
              _ = cs := Int.toNat_of_nonneg (by omega)
          · rw [if_neg hsep] at h
            have hrest_ne : rest ≠ [] := by
              intro hr
              rw [hr] at hlast
              simp only [List.getLast?_singleton, Option.some.injEq] at hlast
              exact hsep hlast
            have hlast' : rest.getLast? = some [] := by
              rwa [getLast?_cons_of_ne_nil sep hrest_ne] at hlast
            obtain ⟨ls, hflat, hfor⟩ := expand_items_ok h
            subst hflat
            intro c hc
            obtain ⟨li, hli, hcli⟩ := List.mem_flatten.mp hc
            obtain ⟨it, hit, hres⟩ := forall₂_mem_left hfor li hli
            cases it with
            | chunk c' =>
              rw [item_res] at hres
              subst hres
              rw [List.mem_singleton.mp hcli]
              refine @pack_chunk_bound _ _ _ [] ?_ c' hit
              simpa using Int.le_trans (by norm_num) hcs
            | recurse p =>
              rw [item_res] at hres
              have hfr : rest.length < f := by
                simp only [List.length_cons] at hf
                omega
              exact ih rest p li hfr hlast' hres c hcli

theorem apply_overlap_nonpos {chunks : List (List Char)} {ov : Int}
    (h : ov ≤ 0) : apply_overlap chunks ov = chunks := by
  rw [apply_overlap, if_pos (Or.inl h)]

theorem apply_overlap_nil (ov : Int) : apply_overlap [] ov = [] := by
  rw [apply_overlap, if_pos (Or.inr rfl)]

theorem apply_overlap_singleton (c : List Char) (ov : Int) :
    apply_overlap [c] ov = [c] := by
  by_cases h : ov ≤ 0
  · exact apply_overlap_nonpos h
  · rw [apply_overlap, if_neg (by simp [h]), overlap_loop, overlap_loop]
    simp

theorem overlap_loop_bound {cs : Int} {ov : Nat} :
    ∀ {chunks : List (List Char)} {prevTail : List Char},
      (∀ c ∈ chunks, (c.length : Int) ≤ cs) →
      prevTail.length ≤ ov →
      ∀ c ∈ overlap_loop ov prevTail chunks, (c.length : Int) ≤ cs + ov := by
  intro chunks
  induction chunks with
  | nil => intro prevTail _ _ c hc; simp [overlap_loop] at hc
  | cons ch rest ih =>
    intro prevTail hlen htail c hc
    rw [overlap_loop] at hc
    rcases List.mem_cons.mp hc with rfl | hc'
    · have h1 := hlen ch (List.mem_cons_self _ _)
      simp only [List.length_append]
      push_cast
      omega
    · refine ih (fun c hc => hlen c (List.mem_cons_of_mem _ hc)) ?_ c hc'
      rw [List.length_drop]
      omega

theorem apply_overlap_bound {cs ov : Int} {chunks : List (List Char)}
    (h : ∀ c ∈ chunks, (c.length : Int) ≤ cs) :
    ∀ c ∈ apply_overlap chunks ov, (c.length : Int) ≤ cs + max ov 0 := by
  have hmax : max ov 0 = if ov ≤ 0 then 0 else ov := by
    by_cases hov : ov ≤ 0
    · simp only [if_pos hov]
      omega
    · simp only [if_neg hov]
      omega
  by_cases hov : ov ≤ 0
  · rw [apply_overlap_nonpos hov, hmax, if_pos hov]
    intro c hc
    have := h c hc
    omega
  · by_cases hch : chunks = []
    · subst hch
      rw [apply_overlap_nil]
      intro c hc
      simp at hc
    · intro c hc
      rw [apply_overlap, if_neg (by simp [hov, hch])] at hc
      have hb := @overlap_loop_bound cs ov.toNat chunks [] h (by simp) c hc
      have hcast : ((ov.toNat : Int)) = ov := Int.toNat_of_nonneg (by omega)
      rw [hmax, if_neg hov]
      omega

theorem collapse_ws_all_space {l : List Char} (h : ∀ c ∈ l, py_is_space c) :
    ∀ b, ∀ c ∈ collapse_ws b l, py_is_space c := by
  induction l with
  | nil => intro b c hc; simp [collapse_ws] at hc
  | cons a rest ih =>
    intro b c hc
    have ha : py_is_space a := h a (List.mem_cons_self _ _)
    rw [collapse_ws, if_pos ha] at hc
    have hrest : ∀ c ∈ rest, py_is_space c := fun c hc => h c (List.mem_cons_of_mem _ hc)
    cases b with
    | true => exact ih hrest true c hc
    | false =>
      rcases List.mem_cons.mp hc with rfl | hc'
      · rfl
      · exact ih hrest true c hc'

theorem normalize_ws_all_space {l : List Char} (h : ∀ c ∈ l, py_is_space c) :
    normalize_ws l = [] := by
  rw [normalize_ws, py_strip]
  rw [List.dropWhile_eq_nil_iff.mpr (collapse_ws_all_space h false)]
  simp

/-- Helper: analysis of a successful `chunk_text` call with a positive
`chunk_size`: the output is the overlap transform of a base segmentation
which interleaves the normalized input with dropped-separator gaps. -/
theorem chunk_text_cases (t : List Char) (p : ChunkParams)
    (out : List (List Char)) (hcs : 1 ≤ p.chunk_size)
    (hout : chunk_text t p = .ok out) :
    ∃ base,
      recursive_split (normalize_ws t) p.chunk_size p.separators = .ok base ∧
        out = apply_overlap base p.chunk_overlap ∧
        Interleaved p.separators base (normalize_ws t) := by
  simp only [chunk_text] at hout
  obtain ⟨base, hrs⟩ : ∃ base,
      recursive_split (normalize_ws t) p.chunk_size p.separators = .ok base := by
    rw [recursive_split]
    exact recursive_split_aux_total hcs _ _ _
  rw [hrs] at hout
  simp only [] at hout
  have hint : Interleaved p.separators base (normalize_ws t) := by
    have hrs' := hrs
    rw [recursive_split] at hrs'
    exact recursive_split_aux_interleaved hcs _ _ _ _ hrs'
  by_cases hb : base = []
  · rw [if_pos hb] at hout
    cases hout
    subst hb
    exact ⟨[], hrs, (apply_overlap_nil _).symm, hint⟩
  · rw [if_neg hb] at hout
    cases hout
    exact ⟨base, hrs, rfl, hint⟩

/-- C1 counterexample: chunking `"ab cd"` with `chunk_size = 2`,
`chunk_overlap = 0` and the default separators yields `["ab", "cd"]`; the
space of the normalized input `"ab cd"` appears in no output chunk, so the
concatenation does not reconstruct the normalized input. -/
theorem chunk_text_reconstruction_cex :
    chunk_text (strL "ab cd") (ChunkParams.mk 2 0
        [['\n', '\n'], ['\n'], ['.', ' '], [' '], []]) =
      .ok [['a', 'b'], ['c', 'd']] ∧
    ' ' ∉ List.flatten [['a', 'b'], ['c', 'd']] ∧
    ' ' ∈ normalize_ws (strL "ab cd") := by decide

/-- C1 (amended): for `chunk_size ≥ 1`, a successful `chunk_text` run is
the overlap transform of base chunks that appear in the normalized input
in order and without duplication; the text between (and around) consecutive
base chunks consists exactly of dropped separator occurrences — so
concatenation reconstructs the normalized input only up to that dropped
separator text. -/
theorem chunk_text_reconstructs_up_to_separators (t : List Char)
    (p : ChunkParams) (out : List (List Char)) (hcs : 1 ≤ p.chunk_size)
    (hout : chunk_text t p = .ok out) :
    ∃ base,
      recursive_split (normalize_ws t) p.chunk_size p.separators = .ok base ∧
        out = apply_overlap base p.chunk_overlap ∧
        Interleaved p.separators base (normalize_ws t) :=
  chunk_text_cases t p out hcs hout

/-- C1 witness: on input `"hi"` with the default parameters the single
base chunk is the normalized input itself. -/
theorem chunk_text_reconstructs_up_to_separators_witness :
    ∃ base,
      recursive_split (normalize_ws (strL "hi")) (1000 : Int)
          [['\n', '\n'], ['\n'], ['.', ' '], [' '], []] = .ok base ∧
        [['h', 'i']] = apply_overlap base 200 ∧
        Interleaved [['\n', '\n'], ['\n'], ['.', ' '], [' '], []] base
          (normalize_ws (strL "hi")) :=
  chunk_text_reconstructs_up_to_separators (strL "hi")
    (ChunkParams.mk 1000 200 [['\n', '\n'], ['\n'], ['.', ' '], [' '], []])
    [['h', 'i']] (by decide) (by decide)

/-- C2: with a positive `chunk_size` and a separator list ending in the
empty separator, every base chunk has length at most `chunk_size`, and
every chunk output by `chunk_text` has length at most `chunk_size` plus
the overlap (`max chunk_overlap 0`: a non-positive overlap prefixes
nothing). -/
theorem chunk_bounds (t : List Char) (p : ChunkParams)
    (hcs : 1 ≤ p.chunk_size) (hlast : p.separators.getLast? = some []) :
    (∀ base,
        recursive_split (normalize_ws t) p.chunk_size p.separators = .ok base →
        ∀ c ∈ base, (c.length : Int) ≤ p.chunk_size) ∧
    (∀ out, chunk_text t p = .ok out →
        ∀ c ∈ out, (c.length : Int) ≤ p.chunk_size + max p.chunk_overlap 0) := by
  have hbase : ∀ base,
      recursive_split (normalize_ws t) p.chunk_size p.separators = .ok base →
      ∀ c ∈ base, (c.length : Int) ≤ p.chunk_size := by
    intro base hrs
    rw [recursive_split] at hrs
    exact recursive_split_aux_bound hcs _ _ _ _ (by omega) hlast hrs
  refine ⟨hbase, ?_⟩
  intro out hout
  obtain ⟨base, hrs, hap, _⟩ := chunk_text_cases t p out hcs hout
  rw [hap]
  exact apply_overlap_bound (hbase base hrs)

/-- C2 witness: chunking `"ab cd"` with `chunk_size = 2`, overlap `50`
gives base chunk `"ab"` (length 2 ≤ 2) and overlap-prefixed chunk `"abcd"`
(length 4 ≤ 2 + 50). -/
theorem chunk_bounds_witness :
    ((['a', 'b'] : List Char).length : Int) ≤ 2 ∧
      ((['a', 'b', 'c', 'd'] : List Char).length : Int) ≤ 2 + max 50 0 := by
  have h := chunk_bounds (strL "ab cd")
    (ChunkParams.mk 2 50 [['\n', '\n'], ['\n'], ['.', ' '], [' '], []])
    (by decide) (by decide)
  exact ⟨h.1 [['a', 'b'], ['c', 'd']] (by decide) ['a', 'b'] (by decide),
    h.2 [['a', 'b'], ['a', 'b', 'c', 'd']] (by decide)
      ['a', 'b', 'c', 'd'] (by decide)⟩

/-- C5 counterexample: with `chunk_overlap = 0` the chunks of `"a b"` at
`chunk_size = 1` are `["a", "b"]`, which is not a partition of the
normalized input `"a b"`: the space is omitted. -/
theorem chunk_text_overlap_zero_cex :
    chunk_text (strL "a b") (ChunkParams.mk 1 0
        [['\n', '\n'], ['\n'], ['.', ' '], [' '], []]) = .ok [['a'], ['b']] ∧
      List.flatten [['a'], ['b']] ≠ normalize_ws (strL "a b") := by decide

/-- C5 (amended): a non-positive overlap is the identity transform on the
base segmentation (`chunk_text` returns the base chunks unchanged), and
for positive `chunk_size` those chunks appear in the normalized input in
order with no duplicated character — but the separator text dropped
between them means they need not cover the input. -/
theorem chunk_text_overlap_nonpos_identity (t : List Char) (p : ChunkParams)
    (hov : p.chunk_overlap ≤ 0) (hcs : 1 ≤ p.chunk_size)
    (out : List (List Char)) (hout : chunk_text t p = .ok out) :
    recursive_split (normalize_ws t) p.chunk_size p.separators = .ok out ∧
      Interleaved p.separators out (normalize_ws t) := by
  obtain ⟨base, hrs, hap, hint⟩ := chunk_text_cases t p out hcs hout
  rw [apply_overlap_nonpos hov] at hap
  subst hap
  exact ⟨hrs, hint⟩

/-- C5 witness: `"xy"` with overlap `0` returns the single base chunk
unchanged. -/
theorem chunk_text_overlap_nonpos_identity_witness :
    recursive_split (normalize_ws (strL "xy")) (1000 : Int)
        [['\n', '\n'], ['\n'], ['.', ' '], [' '], []] = .ok [['x', 'y']] ∧
      Interleaved [['\n', '\n'], ['\n'], ['.', ' '], [' '], []] [['x', 'y']]
        (normalize_ws (strL "xy")) :=
  chunk_text_overlap_nonpos_identity (strL "xy")
    (ChunkParams.mk 1000 0 [['\n', '\n'], ['\n'], ['.', ' '], [' '], []])
    (by decide) (by decide) [['x', 'y']] (by decide)

/-- C6 counterexample: the text `" "` normalizes to the empty string, whose
length 0 is below the default `chunk_size` of 1000, yet `chunk_text`
returns zero chunks, not one. -/
theorem chunk_text_short_single_cex :
    ((normalize_ws (strL " ")).length : Int) < 1000 ∧
      chunk_text (strL " ") (ChunkParams.mk 1000 200
        [['\n', '\n'], ['\n'], ['.', ' '], [' '], []]) = .ok [] ∧
      ([] : List (List Char)).length ≠ 1 := by decide

/-- C6 (amended): a text whose normalization is non-empty and shorter than
`chunk_size` yields exactly one chunk, namely the normalized text itself;
an empty normalization yields zero chunks. -/
theorem chunk_text_short_single (t : List Char) (p : ChunkParams)
    (hne : normalize_ws t ≠ [])
    (hlt : ((normalize_ws t).length : Int) < p.chunk_size) :
    chunk_text t p = .ok [normalize_ws t] := by
  simp only [chunk_text]
  have hrs : recursive_split (normalize_ws t) p.chunk_size p.separators =
      .ok [normalize_ws t] := by
    rw [recursive_split, recursive_split_aux_succ, if_neg hne,
      if_pos (by omega : ((normalize_ws t).length : Int) ≤ p.chunk_size)]
  rw [hrs]
  simp only []
  rw [if_neg (by simp), apply_overlap_singleton]

/-- C6 witness: `"hi"` with default parameters yields the single chunk
`"hi"`. -/
theorem chunk_text_short_single_witness :
    chunk_text (strL "hi") (ChunkParams.mk 1000 200
        [['\n', '\n'], ['\n'], ['.', ' '], [' '], []]) =
      .ok [normalize_ws (strL "hi")] :=
  chunk_text_short_single (strL "hi")
    (ChunkParams.mk 1000 200 [['\n', '\n'], ['\n'], ['.', ' '], [' '], []])
    (by decide) (by decide)

/-- C8 counterexample: constructing `ChunkParams` with `chunk_size = 0`
succeeds (the dataclass performs no validation — the resulting value holds
the non-positive size), and `chunk_text` is reached with it: the failure
is a runtime range error inside fixed-width slicing, not a construction
error. -/
theorem chunk_params_no_validation_cex :
    (ChunkParams.mk 0 200
        [['\n', '\n'], ['\n'], ['.', ' '], [' '], []]).chunk_size = 0 ∧
      chunk_text (strL "abc") (ChunkParams.mk 0 200
          [['\n', '\n'], ['\n'], ['.', ' '], [' '], []]) =
        .error "ValueError: range() arg 3 must not be zero" := by decide

/-- C8 (amended): a non-positive `chunk_size` is not reported at
`ChunkParams` construction; it reaches `chunk_text`, where `chunk_size = 0`
on text with non-empty normalization raises the range-step-zero
`ValueError` during fixed-width slicing, and a negative `chunk_size`
silently returns no chunks. -/
theorem chunk_size_nonpositive_runtime :
    chunk_text (strL "ab") (ChunkParams.mk 0 0
        [['\n', '\n'], ['\n'], ['.', ' '], [' '], []]) =
      .error "ValueError: range() arg 3 must not be zero" ∧
    chunk_text (strL "ab") (ChunkParams.mk (-1) 0
        [['\n', '\n'], ['\n'], ['.', ' '], [' '], []]) = .ok [] := by decide

/-- C10: for every text, every positive `chunk_size` and every (finite)
separator list, `_recursive_split` terminates with a result and raises no
error: the recursion is well-founded because each recursive call drops the
head separator, and fixed-width slicing is a bounded iteration. -/
theorem recursive_split_total (t : List Char) (cs : Int)
    (seps : List (List Char)) (hcs : 1 ≤ cs) :
    ∃ l, recursive_split t cs seps = .ok l := by
  rw [recursive_split]
  exact recursive_split_aux_total hcs _ _ _

/-- C10 witness: a concrete total run. -/
theorem recursive_split_total_witness :
    ∃ l, recursive_split (strL "abc de") 2 [[' '], []] = .ok l :=
  recursive_split_total (strL "abc de") 2 [[' '], []] (by decide)

/-- Python truthiness of `s.strip()` for a string `s`: true iff `s`
contains a non-whitespace character. -/
def strip_truthy (s : List Char) : Bool := s.any (fun c => !py_is_space c)

/-- A value inside the structured dict view of a response (`to_dict`):
strings, lists, nested dicts, or anything else. -/
inductive DVal where
  | str (s : List Char)
  | list (l : List DVal)
  | dict (d : List (List Char × DVal))
  | other

/-- An element of a message `content` list (oci_llm.py probes only its
`text` attribute; `none` models a missing or non-string value). -/
structure ContentItem where
  text : Option (List Char) := none

/-- The `message` attribute of a chat choice. -/
structure PyMessage where
  content : Option (List ContentItem) := none

/-- One element of a `choices` collection. -/
structure PyChoice where
  message : Option PyMessage := none
  text : Option (List Char) := none

/-- The attributes of a response-data object that
`_extract_text_from_oci_response` probes with `getattr`; `none` models an
absent attribute or one whose value fails the `isinstance` check. -/
structure OCIObj where
  output_text : Option (List Char) := none
  generated_text : Option (List Char) := none
  text : Option (List Char) := none
  result : Option (List Char) := none
  output : Option (List Char) := none
  output_texts : Option (List DVal) := none
  generated_texts : Option (List DVal) := none
  outputs : Option (List DVal) := none
  choices : Option (List PyChoice) := none
  content : Option (List ContentItem) := none
  to_dict : Option (List (List Char × DVal)) := none

/-- The dynamic value handed to response extraction: Python `None`, a bare
string, or an SDK model object. -/
inductive OCIData where
  | pynone
  | pystr (s : List Char)
  | obj (o : OCIObj)

/-- Keep an attribute value only if it is a string whose `strip()` is
truthy (oci_llm.py lines 86-89 and similar probes). -/
def nonblank_str : Option (List Char) → Option (List Char)
  | some s => if strip_truthy s then some s else none
  | none => none

/-- First successful probe wins. -/
def first_some : List (Option (List Char)) → Option (List Char)
  | [] => none
  | some s :: _ => some s
  | none :: rest => first_some rest

/-- Scan a list-of-strings attribute for its first non-blank string entry
(oci_llm.py lines 92-98); non-string entries are skipped. -/
def first_str_entry : List DVal → Option (List Char)
  | [] => none
  | .str s :: rest => if strip_truthy s then some s else first_str_entry rest
  | _ :: rest => first_str_entry rest

/-- Probe one of the list-of-strings attributes (skipped when absent or
empty, per `isinstance(arr, (list, tuple)) and arr`). -/
def list_field_probe : Option (List DVal) → Option (List Char)
  | some l => first_str_entry l
  | none => none

/-- Probe a non-empty `choices` collection (oci_llm.py lines 100-120):
first `choices[0].message.content[0].text`, then `choices[0].text`. -/
def choices_probe : List PyChoice → Option (List Char)
  | [] => none
  | c0 :: _ =>
    let viaMessage :=
      match c0.message with
      | some m =>
        match m.content with
        | some (item :: _) => nonblank_str item.text
        | _ => none
      | none => none
    match viaMessage with
    | some s => some s
    | none => nonblank_str c0.text

/-- Probe a non-empty generic `content` list (oci_llm.py lines 122-131). -/
def content_probe : List ContentItem → Option (List Char)
  | item :: _ => nonblank_str item.text
  | [] => none

/-- `obj.get(key)` followed by the string `isinstance`/`strip` check
(oci_llm.py lines 139-142). -/
def dict_str_probe (d : List (List Char × DVal)) (key : List Char) :
    Option (List Char) :=
  match List.lookup key d with
  | some (.str s) => if strip_truthy s then some s else none
  | _ => none

/-- Scan a dict-view list value for the first non-blank string entry or
nested dict with a non-blank `"text"` value (oci_llm.py lines 146-153). -/
def dict_list_entry : List DVal → Option (List Char)
  | [] => none
  | .str s :: rest => if strip_truthy s then some s else dict_list_entry rest
  | .dict d :: rest =>
    (match List.lookup (strL "text") d with
     | some (.str t) => if strip_truthy t then some t else dict_list_entry rest
     | _ => dict_list_entry rest)
  | _ :: rest => dict_list_entry rest

/-- Probe one of the list-valued dict keys (oci_llm.py lines 143-153). -/
def dict_list_probe (d : List (List Char × DVal)) (key : List Char) :
    Option (List Char) :=
  match List.lookup key d with
  | some (.list l) => dict_list_entry l
  | _ => none

/-- All the dict-view probes, in source order (oci_llm.py lines 133-153). -/
def dict_probe (d : List (List Char × DVal)) : Option (List Char) :=
  first_some
    [dict_str_probe d (strL "output_text"), dict_str_probe d (strL "generated_text"),
     dict_str_probe d (strL "text"), dict_str_probe d (strL "result"),
     dict_str_probe d (strL "output"),
     dict_list_probe d (strL "output_texts"), dict_list_probe d (strL "generated_texts"),
     dict_list_probe d (strL "outputs"), dict_list_probe d (strL "choices"),
     dict_list_probe d (strL "content")]

/-- `_extract_text_from_oci_response` (oci_llm.py lines 75-158): the
ordered extraction strategies over a response of unknown shape; returns
`none` (Python `None`) when no strategy yields non-blank text, and never
raises. -/
def extract_text_from_oci_response : OCIData → Option (List Char)
  | .pynone => none
  | .pystr s => if strip_truthy s then some s else none
  | .obj o =>
    first_some
      [nonblank_str o.output_text, nonblank_str o.generated_text,
       nonblank_str o.text, nonblank_str o.result, nonblank_str o.output,
       list_field_probe o.output_texts, list_field_probe o.generated_texts,
       list_field_probe o.outputs,
       (match o.choices with
        | some l => choices_probe l
        | none => none),
       (match o.content with
        | some l => content_probe l
        | none => none),
       (match o.to_dict with
        | some (kv :: kvs) => dict_probe (kv :: kvs)
        | _ => none)]

/-- A conversational-shape response object:
`choices[0].message.content[0].text = X`. -/
def conv_shape (X : List Char) : OCIObj :=
  { choices := some [{ message := some { content := some [{ text := some X }] } }] }

/-- A completion-shape response object: `choices[0].text = X`. -/
def completion_shape (X : List Char) : OCIObj :=
  { choices := some [{ text := some X }] }

/-- An object exposing none of the known shapes: every probed attribute is
absent. -/
def unknown_shape : OCIObj := {}

/-- C3 counterexample: a conversational-shape response whose
`choices[0].message.content[0].text` is the non-empty but all-whitespace
string `" "` yields absence, not `" "`: the code demands a non-blank
`strip()`, so "non-empty" is not sufficient. -/
theorem extract_text_shapes_cex :
    extract_text_from_oci_response (.obj (conv_shape [' '])) = none ∧
      ([' '] : List Char) ≠ [] := by
  refine ⟨?_, by decide⟩
  rfl

/-- C3 (amended): for any string `X` containing a non-whitespace character,
extraction returns `X` on a conversational-shape object
(`choices[0].message.content[0].text = X`) and on a completion-shape object
(`choices[0].text = X`), and returns absence (`none`, no exception) on an
object exposing none of the known shapes. -/
theorem extract_text_shapes (X : List Char) (hX : strip_truthy X = true) :
    extract_text_from_oci_response (.obj (conv_shape X)) = some X ∧
    extract_text_from_oci_response (.obj (completion_shape X)) = some X ∧
    extract_text_from_oci_response (.obj unknown_shape) = none := by
  refine ⟨?_, ?_, rfl⟩
  · simp [extract_text_from_oci_response, conv_shape, first_some, nonblank_str,
      list_field_probe, first_str_entry, choices_probe, hX]
  · simp [extract_text_from_oci_response, completion_shape, first_some,
      nonblank_str, list_field_probe, first_str_entry, choices_probe, hX]

/-- C3 witness: the three shapes at the concrete string `"X"`. -/
theorem extract_text_shapes_witness :
    extract_text_from_oci_response (.obj (conv_shape (strL "X"))) = some (strL "X") ∧
    extract_text_from_oci_response (.obj (completion_shape (strL "X"))) = some (strL "X") ∧
    extract_text_from_oci_response (.obj unknown_shape) = none :=
  extract_text_shapes (strL "X") (by decide)

/-- Modelled from the spec: the `settings` record read from the environment
by `config.py` (which is not under src/); only the fields consumed by
`oci_llm.py` are modelled.  A field is an optional string; Python-falsy
values (`None` or `""`) are `none` or `some []`. -/
structure Settings where
  llm_provider : List Char
  oci_config_file : Option (List Char) := none
  oci_config_profile : Option (List Char) := none
  oci_region : Option (List Char) := none
  oci_tenancy_ocid : Option (List Char) := none
  oci_user_ocid : Option (List Char) := none
  oci_fingerprint : Option (List Char) := none
  oci_private_key_path : Option (List Char) := none
  oci_private_key_passphrase : Option (List Char) := none
  oci_genai_endpoint : Option (List Char) := none
  oci_compartment_id : Option (List Char) := none
  oci_genai_model_id : Option (List Char) := none

/-- Python truthiness of an optional string setting. -/
def py_truthy : Option (List Char) → Bool
  | none => false
  | some s => !s.isEmpty

/-- Oracle for the parts of `_build_oci_clients` owned by the external OCI
SDK: whether the SDK imports, and whether each construction path succeeds
on its own account (file readable, key usable). -/
structure SdkEnv where
  sdk_available : Bool
  config_file_ok : Bool
  signer_ok : Bool

/-- `_build_oci_clients` (oci_llm.py lines 12-61): config-file auth first,
then the five-field API-key signer; `none` when no client can be built.
The SDK client constructor itself is external; modelled from the spec
(§4.2): building a client requires the service endpoint identity, so a
falsy `oci_genai_endpoint` fails both paths. -/
def build_oci_clients (s : Settings) (e : SdkEnv) : Option Unit :=
  if !e.sdk_available then none
  else if py_truthy s.oci_config_file && e.config_file_ok &&
      py_truthy s.oci_genai_endpoint then some ()
  else if py_truthy s.oci_tenancy_ocid && py_truthy s.oci_user_ocid &&
      py_truthy s.oci_fingerprint && py_truthy s.oci_private_key_path &&
      py_truthy s.oci_region && e.signer_ok &&
      py_truthy s.oci_genai_endpoint then some ()
  else none

/-- Oracle for the two request paths of `oci_chat_completion`: whether the
request models import/construct under the installed client version,
whether the service call raises, and the response data it returns. -/
structure GenAiEnv where
  sdk : SdkEnv
  chat_available : Bool
  chat_raises : Bool
  chat_data : OCIData
  gen_available : Bool
  gen_raises : Bool
  gen_data : OCIData

/-- Extraction result as used by `if out:` — only non-empty text counts. -/
def extracted_nonempty (d : OCIData) : Option (List Char) :=
  match extract_text_from_oci_response d with
  | some t => if t.isEmpty then none else some t
  | none => none

/-- `oci_chat_completion` (oci_llm.py lines 162-228): build a client,
check the provider, check the compartment and model identifiers (a missing
one raises `ValueError`, caught by the outer handler, producing `None`),
then try `chat()` and fall back to `generate_text()`.  The second
component counts the network calls attempted. -/
def oci_chat_completion (s : Settings) (env : GenAiEnv) :
    Option (List Char) × Nat :=
  match build_oci_clients s env.sdk with
  | none => (none, 0)
  | some _ =>
    if s.llm_provider ≠ strL "oci" then (none, 0)
    else if !py_truthy s.oci_compartment_id || !py_truthy s.oci_genai_model_id then
      (none, 0)
    else
      let chat_calls := if env.chat_available then 1 else 0
      let chat_result :=
        if env.chat_available && !env.chat_raises then
          extracted_nonempty env.chat_data
        else none
      match chat_result with
      | some t => (some t, chat_calls)
      | none =>
        let gen_calls := if env.gen_available then 1 else 0
        if env.gen_available && !env.gen_raises then
          match extracted_nonempty env.gen_data with
          | some t => (some t, chat_calls + gen_calls)
          | none => (none, chat_calls + gen_calls)
        else (none, chat_calls + gen_calls)

/-- C7: when the service endpoint identity, the model identity, or the
compartment identity is missing, `oci_chat_completion` returns the absence
signal and attempts zero network calls — it aborts before any network
attempt, for every SDK/response environment. -/
theorem oci_chat_completion_missing_config (s : Settings) (env : GenAiEnv)
    (h : ¬ py_truthy s.oci_genai_endpoint ∨ ¬ py_truthy s.oci_compartment_id ∨
      ¬ py_truthy s.oci_genai_model_id) :
    oci_chat_completion s env = (none, 0) := by
  rw [oci_chat_completion]
  cases hb : build_oci_clients s env.sdk with
  | none => rfl
  | some u =>
    simp only []
    by_cases hp : s.llm_provider ≠ strL "oci"
    · rw [if_pos hp]
    · rw [if_neg hp]
      have hend : py_truthy s.oci_genai_endpoint = true := by
        by_contra hc
        rw [build_oci_clients] at hb
        simp only [Bool.not_eq_true] at hc
        by_cases hs : env.sdk.sdk_available
        all_goals simp [hc] at hb
      have hcm : ¬ py_truthy s.oci_compartment_id ∨
          ¬ py_truthy s.oci_genai_model_id := by
        rcases h with h | h | h
        · exact absurd hend h
        · exact Or.inl h
        · exact Or.inr h
      rw [if_pos ?_]
      rcases hcm with h' | h' <;> simp [h']

/-- C7 witness: a fully-available environment whose settings lack the
compartment identity returns absence with zero network calls. -/
theorem oci_chat_completion_missing_config_witness :
    oci_chat_completion
      { llm_provider := strL "oci", oci_config_file := some (strL "cfg"),
        oci_genai_endpoint := some (strL "ep"),
        oci_genai_model_id := some (strL "m") }
      { sdk := { sdk_available := true, config_file_ok := true, signer_ok := true },
        chat_available := true, chat_raises := false, chat_data := .pynone,
        gen_available := true, gen_raises := false, gen_data := .pynone } =
      (none, 0) :=
  oci_chat_completion_missing_config _ _ (Or.inr (Or.inl (by decide)))

/-- A row of the `documents` table (store.py `insert_document`). -/
structure DocumentRow where
  source_path : List Char
  source_type : List Char
  title : Option (List Char)

/-- A row of the `chunks` table (store.py `insert_chunks`); the embedding
vector type is abstract since the embedding gateway is an external
collaborator. -/
structure ChunkRow (V : Type) where
  document_id : Nat
  chunk_index : Nat
  content : List Char
  content_chars : Nat
  embedding_model : List Char
  embedding : V

/-- The relational store owned by the storage gateway. -/
structure Store (V : Type) where
  documents : List DocumentRow
  chunks : List (ChunkRow V)

/-- `IngestResult` (store.py lines 22-25). -/
structure IngestResult where
  document_id : Nat
  num_chunks : Nat

/-- `insert_document` (store.py lines 99-106): append a document row and
return its id (modelled as the row's position). -/
def insert_document (V : Type) (st : Store V) (source_path source_type : List Char)
    (title : Option (List Char)) : Store V × Nat :=
  ({ st with documents := st.documents ++ [⟨source_path, source_type, title⟩] },
    st.documents.length)

/-- `insert_chunks` (store.py lines 109-123): length-mismatch check, then
one row per chunk with its 0-based index and character count. -/
def insert_chunks (V : Type) (emb_model : List Char) (st : Store V)
    (document_id : Nat) (chunks : List (List Char)) (embeddings : List V) :
    PyRes (Store V × Nat) :=
  if chunks.length ≠ embeddings.length then
    .error "Chunks and embeddings length mismatch"
  else
    let rows := (chunks.zip embeddings).enum.map
      (fun ie => ⟨document_id, ie.1, ie.2.1, ie.2.1.length, emb_model, ie.2.2⟩)
    (.ok ({ st with chunks := st.chunks ++ rows }, rows.length))

/-- `ingest_file_path` (store.py lines 126-139).  The text extraction
(`read_text_from_file`) is file I/O performed before this logic; its
result `(text, source_type)` is taken as input.  The embedding gateway is
the function argument `embed`. -/
def ingest_file_path (V : Type) (emb_model : List Char) (st : Store V)
    (text source_type file_path : List Char) (title : Option (List Char))
    (cp : ChunkParams) (embed : List (List Char) → List V) :
    PyRes (Store V × IngestResult) :=
  match chunk_text text cp with
  | .error e => .error e
  | .ok chunks =>
    if chunks = [] then .error "No textual content extracted from file"
    else
      let embeddings := embed chunks
      let st1 := (insert_document V st file_path source_type title).1
      let doc_id := (insert_document V st file_path source_type title).2
      match insert_chunks V emb_model st1 doc_id chunks embeddings with
      | .error e => .error e
      | .ok (st2, n) => .ok (st2, ⟨doc_id, n⟩)

/-- The transaction boundary around `ingest_file_path` (`with get_conn()`):
a raised error rolls back, leaving the store unchanged. -/
def run_ingest (V : Type) (emb_model : List Char) (st : Store V)
    (text source_type file_path : List Char) (title : Option (List Char))
    (cp : ChunkParams) (embed : List (List Char) → List V) :
    Store V × PyRes IngestResult :=
  match ingest_file_path V emb_model st text source_type file_path title cp embed with
  | .error e => (st, .error e)
  | .ok (st', r) => (st', .ok r)

theorem chunk_text_of_normalize_nil {t : List Char} (p : ChunkParams)
    (h : normalize_ws t = []) : chunk_text t p = .ok [] := by
  simp only [chunk_text, h]
  rw [show recursive_split [] p.chunk_size p.separators = .ok [] by
    rw [recursive_split, recursive_split_aux_succ, if_pos rfl]]
  rfl

/-- C4: ingesting a file whose extracted text is empty or whitespace-only
fails with the typed "no content" error and leaves the store unchanged —
no document row and no chunk rows are created. -/
theorem ingest_whitespace_no_rows (V : Type) (emb_model : List Char)
    (st : Store V) (text source_type file_path : List Char)
    (title : Option (List Char)) (cp : ChunkParams)
    (embed : List (List Char) → List V)
    (h : ∀ c ∈ text, py_is_space c) :
    run_ingest V emb_model st text source_type file_path title cp embed =
      (st, .error "No textual content extracted from file") := by
  rw [run_ingest, ingest_file_path,
    chunk_text_of_normalize_nil cp (normalize_ws_all_space h)]
  rfl

/-- The trivial embedding gateway used by witnesses. -/
def unit_embed : List (List Char) → List Unit := fun l => l.map (fun _ => ())

/-- C4 witness: a whitespace-only extracted text (`" \t\n "`) against an
empty store. -/
theorem ingest_whitespace_no_rows_witness :
    run_ingest Unit (strL "model") ⟨[], []⟩ (strL " \t\n ") (strL "txt")
        (strL "up/a.txt") none (ChunkParams.mk 1000 200
          [['\n', '\n'], ['\n'], ['.', ' '], [' '], []]) unit_embed =
      (⟨[], []⟩, .error "No textual content extracted from file") :=
  ingest_whitespace_no_rows Unit (strL "model") ⟨[], []⟩ (strL " \t\n ")
    (strL "txt") (strL "up/a.txt") none
    (ChunkParams.mk 1000 200 [['\n', '\n'], ['\n'], ['.', ' '], [' '], []])
    unit_embed (by decide)

/-- A `datetime.utcnow()` reading at the second granularity consumed by
`_timestamp_path` (store.py lines 34-38). -/
structure UtcNow where
  year : Nat
  month : Nat
  day : Nat
  hour : Nat
  minute : Nat
  second : Nat
deriving Repr, DecidableEq

/-- The decimal digit character for `n < 10`. -/
def digit_char (n : Nat) : Char := Char.ofNat (48 + n)

/-- Python `f"{n:02d}"` for `n < 100`: zero-padded two digits. -/
def pad2 (n : Nat) : List Char := [digit_char (n / 10), digit_char (n % 10)]

/-- Decimal rendering with fuel (`fuel = n` always suffices). -/
def nat_digits_aux : Nat → Nat → List Char
  | 0, n => [digit_char (n % 10)]
  | fuel + 1, n =>
    if n < 10 then [digit_char n]
    else nat_digits_aux fuel (n / 10) ++ [digit_char (n % 10)]

/-- Python `str(n)` for a natural number. -/
def nat_digits (n : Nat) : List Char := nat_digits_aux n n

/-- `_timestamp_path(base_name)` (store.py lines 34-38): the relative path
`YYYY/MM/DD/HHMMSS/base_name` as its list of components, built from the
`datetime.utcnow()` reading at the moment of the call. -/
def timestamp_path (now : UtcNow) (base_name : List Char) : List (List Char) :=
  [nat_digits now.year, pad2 now.month, pad2 now.day,
   pad2 now.hour ++ pad2 now.minute ++ pad2 now.second, base_name]

/-- Python `Path(filename).name`: the final path component. -/
def path_name (l : List Char) : List Char :=
  l.foldl (fun acc c => if c = '/' then [] else acc ++ [c]) []

/-- Python `str.replace("..", ".")` (store.py line 84): collapse each
left-to-right, non-overlapping occurrence of `".."`. -/
def replace_dotdot : List Char → List Char
  | '.' :: '.' :: rest => '.' :: replace_dotdot rest
  | c :: rest => c :: replace_dotdot rest
  | [] => []

/-- The local path written by `save_upload` (store.py lines 76-96):
`upload_dir / _timestamp_path(base_name)` where `base_name` is the
sanitized final component of the uploaded filename. -/
def save_upload_path (upload_dir : List (List Char)) (now : UtcNow)
    (filename : List Char) : List (List Char) :=
  upload_dir ++ timestamp_path now (replace_dotdot (path_name filename))

/-- Parse back a digit rendering (used only to prove injectivity). -/
def parse_digits (l : List Char) : Nat :=
  l.foldl (fun acc c => acc * 10 + (c.toNat - 48)) 0

theorem digit_char_toNat {d : Nat} (h : d < 10) : (digit_char d).toNat = 48 + d := by
  interval_cases d <;> decide

theorem parse_digits_one (c : Char) : parse_digits [c] = c.toNat - 48 := by
  simp [parse_digits]

theorem parse_digits_two (c₁ c₂ : Char) :
    parse_digits [c₁, c₂] = (c₁.toNat - 48) * 10 + (c₂.toNat - 48) := by
  simp [parse_digits]

theorem parse_digits_append_digit (l : List Char) (c : Char) :
    parse_digits (l ++ [c]) = parse_digits l * 10 + (c.toNat - 48) := by
  rw [parse_digits, List.foldl_append]
  rfl

theorem parse_digits_nat_digits_aux :
    ∀ (fuel n : Nat), n ≤ fuel → parse_digits (nat_digits_aux fuel n) = n := by
  intro fuel
  induction fuel with
  | zero =>
    intro n hn
    interval_cases n
    decide
  | succ f ih =>
    intro n hn
    rw [nat_digits_aux]
    by_cases h : n < 10
    · rw [if_pos h]
      rw [parse_digits_one, digit_char_toNat h]
      omega
    · rw [if_neg h]
      rw [parse_digits_append_digit, ih (n / 10) (by omega),
        digit_char_toNat (Nat.mod_lt n (by omega))]
      omega

theorem nat_digits_inj {a b : Nat} (h : nat_digits a = nat_digits b) : a = b := by
  have ha := parse_digits_nat_digits_aux a a le_rfl
  have hb := parse_digits_nat_digits_aux b b le_rfl
  simp only [nat_digits] at h
  rw [← ha, ← hb, h]

theorem parse_digits_pad2 {n : Nat} (h : n < 100) : parse_digits (pad2 n) = n := by
  rw [pad2, parse_digits_two, digit_char_toNat (by omega),
    digit_char_toNat (Nat.mod_lt n (by omega))]
  omega

theorem pad2_inj {a b : Nat} (ha : a < 100) (hb : b < 100)
    (h : pad2 a = pad2 b) : a = b := by
  rw [← parse_digits_pad2 ha, ← parse_digits_pad2 hb, h]

theorem parse_digits_foldl_acc (l : List Char) :
    ∀ acc : Nat,
      l.foldl (fun acc c => acc * 10 + (c.toNat - 48)) acc =
        acc * 10 ^ l.length + parse_digits l := by
  induction l with
  | nil => intro acc; simp [parse_digits]
  | cons c rest ih =>
    intro acc
    have hr : parse_digits (c :: rest) =
        (0 * 10 + (c.toNat - 48)) * 10 ^ rest.length + parse_digits rest := by
      rw [parse_digits, List.foldl_cons]
      exact ih _
    rw [List.foldl_cons, ih, hr]
    simp only [List.length_cons, Nat.zero_mul, Nat.zero_add]
    ring

theorem parse_digits_append (l₁ l₂ : List Char) :
    parse_digits (l₁ ++ l₂) =
      parse_digits l₁ * 10 ^ l₂.length + parse_digits l₂ := by
  rw [parse_digits, List.foldl_append, ← parse_digits, parse_digits_foldl_acc]

theorem hms_inj {h₁ m₁ s₁ h₂ m₂ s₂ : Nat}
    (bh₁ : h₁ < 100) (bm₁ : m₁ < 100) (bs₁ : s₁ < 100)
    (bh₂ : h₂ < 100) (bm₂ : m₂ < 100) (bs₂ : s₂ < 100)
    (h : pad2 h₁ ++ pad2 m₁ ++ pad2 s₁ = pad2 h₂ ++ pad2 m₂ ++ pad2 s₂) :
    h₁ = h₂ ∧ m₁ = m₂ ∧ s₁ = s₂ := by
  have hp := congrArg parse_digits h
  rw [parse_digits_append, parse_digits_append, parse_digits_append,
    parse_digits_append] at hp
  rw [parse_digits_pad2 bh₁, parse_digits_pad2 bm₁, parse_digits_pad2 bs₁,
    parse_digits_pad2 bh₂, parse_digits_pad2 bm₂, parse_digits_pad2 bs₂] at hp
  simp only [pad2, List.length_cons, List.length_nil, List.length_append] at hp
  omega

/-- C9 counterexample: the upload path depends only on the second-
granularity UTC timestamp and the filename, so two uploads of `"a.txt"`
during the same UTC second (here 2026-10-12 09:30:00) receive the same
local path — the claimed distinctness fails for same-second invocations. -/
theorem save_upload_path_collision_cex :
    save_upload_path [strL "uploads"] ⟨2026, 10, 12, 9, 30, 0⟩ (strL "a.txt") =
        save_upload_path [strL "uploads"] ⟨2026, 10, 12, 9, 30, 0⟩ (strL "a.txt") ∧
      save_upload_path [strL "uploads"] ⟨2026, 10, 12, 9, 30, 0⟩ (strL "a.txt") =
        [strL "uploads", strL "2026", strL "10", strL "12", strL "093000",
          strL "a.txt"] := by
  exact ⟨rfl, by decide⟩

/-- C9 (amended): upload invocations with the same filename receive
distinct local paths if and only if their UTC timestamps differ in some
field (within the valid two-digit ranges); equal-second invocations
collide.  This theorem proves the distinctness direction. -/
theorem timestamp_path_injective (t₁ t₂ : UtcNow) (name : List Char)
    (hm₁ : t₁.month < 100) (hd₁ : t₁.day < 100) (hh₁ : t₁.hour < 100)
    (hmi₁ : t₁.minute < 100) (hs₁ : t₁.second < 100)
    (hm₂ : t₂.month < 100) (hd₂ : t₂.day < 100) (hh₂ : t₂.hour < 100)
    (hmi₂ : t₂.minute < 100) (hs₂ : t₂.second < 100)
    (hne : t₁ ≠ t₂) :
    timestamp_path t₁ name ≠ timestamp_path t₂ name := by
  intro h
  simp only [timestamp_path, List.cons.injEq, and_true] at h
  obtain ⟨hy, hmo, hdd, hhms⟩ := h
  obtain ⟨hh, hmi, hs⟩ := hms_inj hh₁ hmi₁ hs₁ hh₂ hmi₂ hs₂ hhms
  apply hne
  obtain ⟨y₁, mo₁, d₁, ho₁, mi₁, se₁⟩ := t₁
  obtain ⟨y₂, mo₂, d₂, ho₂, mi₂, se₂⟩ := t₂
  simp only [UtcNow.mk.injEq]
  exact ⟨nat_digits_inj hy, pad2_inj hm₁ hm₂ hmo, pad2_inj hd₁ hd₂ hdd, hh, hmi, hs⟩

/-- C9 witness: two uploads of the same filename one second apart get
different paths. -/
theorem timestamp_path_injective_witness :
    timestamp_path ⟨2026, 10, 12, 9, 30, 0⟩ (strL "a.txt") ≠
      timestamp_path ⟨2026, 10, 12, 9, 30, 1⟩ (strL "a.txt") :=
  timestamp_path_injective ⟨2026, 10, 12, 9, 30, 0⟩ ⟨2026, 10, 12, 9, 30, 1⟩
    (strL "a.txt") (by decide) (by decide) (by decide) (by decide) (by decide)
    (by decide) (by decide) (by decide) (by decide) (by decide) (by decide)
